import Mathlib

/-!
Verification development for srtShift (src/Shifter.py).

The Python source is shallowly embedded as executable Lean definitions:

* lines of text are lists of characters (a Python str);
* the IEEE-754 doubles produced by float arithmetic in timecode_to_sec are
  represented exactly as scaled naturals m / 2^t together with explicit
  round-to-nearest-even at 53 significant bits (only nonnegative doubles
  occur in that function);
* decimal.Decimal values are represented as an integer coefficient and a
  power-of-ten exponent, with the default context arithmetic (28
  significant digits, ROUND_HALF_EVEN) modelled in decAdd;
* datetime.strptime with format %H:%M:%S,%f is embedded as a deterministic
  character parser equivalent to the regex (2[0-3]|[0-1]\d|\d) for %H,
  ([0-5]\d|\d) for %M, (6[0-1]|[0-5]\d|\d) for %S and [0-9]\x7b1,6\x7d for %f,
  with the full-match check and the datetime constructor range check
  second <= 59 (seconds 60 and 61 match the pattern but then fail datetime
  construction, which is a parse failure all the same);
* file writing in append mode is embedded by threading the pre-existing
  file content through write_new_file;
* Python exceptions and sys.exit are an explicit error type.

Digits are modelled as ASCII digits.  All recursion is structural (with
explicit fuel where Python iterates until exhaustion); the fuel bounds are
far beyond any value reachable from the program's data.
-/

namespace Shifter

/-! ### Python string helpers -/

/-- Python whitespace characters stripped by str.strip(). -/
def pySpace (c : Char) : Bool :=
  c = ' ' || c = '\t' || c = '\n' || c = '\r' || c = '\x0b' || c = '\x0c'

/-- Python str.strip(): drop leading and trailing whitespace. -/
def pyStrip (cs : List Char) : List Char :=
  ((cs.dropWhile pySpace).reverse.dropWhile pySpace).reverse

/-- A line is blank when bool(line.strip()) is False (whitespace only). -/
def blankLine (cs : List Char) : Bool :=
  pyStrip cs = ([] : List Char)

/-- Boolean test that a list starts with the given pattern. -/
def leadsWith : List Char → List Char → Bool
  | [], _ => true
  | _ :: _, [] => false
  | p :: ps, c :: cs => p = c && leadsWith ps cs

/-- Python str.split(sep) for a nonempty separator, with fuel (first
argument) at least the length of the string: repeatedly cut at the
leftmost occurrence of the separator. -/
def splitSepF (sep : List Char) : ℕ → List Char → List (List Char)
  | 0, cs => [cs]
  | _ + 1, [] => [[]]
  | f + 1, c :: cs =>
    if leadsWith sep (c :: cs) then
      [] :: splitSepF sep f (List.drop sep.length (c :: cs))
    else
      match splitSepF sep f cs with
      | [] => [[c]]
      | d :: ds => (c :: d) :: ds

/-- Python str.split(' --> ') as used on the time-range line. -/
def splitArrow (cs : List Char) : List (List Char) :=
  splitSepF (" --> ".data) (cs.length + 1) cs

/-! ### Chunk splitter (chunk_subs, Shifter.py lines 27-36)

The source groups the file lines with itertools.groupby keyed on
bool(line.strip()) and keeps the groups with a truthy key; that is,
it returns the maximal runs of non-blank lines and drops the runs of
blank lines.  chunkGo is that loop with an accumulator for the run of
non-blank lines currently open. -/

/-- Worker for chunk_subs; cur is the currently open run, in reverse. -/
def chunkGo : List (List Char) → List (List Char) → List (List (List Char))
  | [], cur => if cur.isEmpty then [] else [cur.reverse]
  | l :: ls, cur =>
    if blankLine l then
      if cur.isEmpty then chunkGo ls [] else cur.reverse :: chunkGo ls []
    else
      chunkGo ls (l :: cur)

/-- chunk_subs: split the file lines into blank-line-delimited chunks. -/
def chunk_subs (lines : List (List Char)) : List (List (List Char)) :=
  chunkGo lines []

/-- Claim-side description of the splitter: cut the line list at every
blank line (this keeps empty pieces for leading, trailing or repeated
blank lines; the program keeps only the nonempty pieces). -/
def splitBlanks : List (List Char) → List (List (List Char))
  | [] => [[]]
  | l :: ls =>
    if blankLine l then [] :: splitBlanks ls
    else
      match splitBlanks ls with
      | [] => [[l]]
      | c :: cs => (l :: c) :: cs

/-! ### strptime('%H:%M:%S,%f') (used by timecode_to_sec, line 92) -/

/-- ASCII digit test (code points 48 to 57). -/
def digitCh (c : Char) : Bool := 48 ≤ c.toNat && c.toNat ≤ 57

/-- Value of an ASCII digit. -/
def dval (c : Char) : ℕ := c.toNat - '0'.toNat

/-- Value of a digit string read left to right. -/
def digitsVal (ds : List Char) : ℕ := ds.foldl (fun a c => 10 * a + dval c) 0

/-- Parse a one- or two-digit field whose two-digit values are capped at
maxv, exactly like the strptime alternations 2[0-3]|[0-1]\d|\d (maxv 23),
[0-5]\d|\d (maxv 59) and 6[0-1]|[0-5]\d|\d (maxv 61).  When two digits are
present but exceed the cap the regex can only retry with one digit, and
the following separator test then meets a digit and fails, so returning
none is equivalent to backtracking. -/
def parse2 (maxv : ℕ) : List Char → Option (ℕ × List Char)
  | c1 :: c2 :: rest =>
    if digitCh c1 then
      if digitCh c2 then
        if 10 * dval c1 + dval c2 ≤ maxv then
          some (10 * dval c1 + dval c2, rest)
        else none
      else some (dval c1, c2 :: rest)
    else none
  | [c1] => if digitCh c1 then some (dval c1, []) else none
  | [] => none

/-- Require one literal character. -/
def expectCh (c : Char) : List Char → Option (List Char)
  | x :: rest => if x = c then some rest else none
  | [] => none

/-- Take at most n leading digits (the greedy [0-9]\x7b1,6\x7d of %f). -/
def takeDigits : ℕ → List Char → List Char × List Char
  | 0, cs => ([], cs)
  | _ + 1, [] => ([], [])
  | n + 1, c :: cs =>
    if digitCh c then
      match takeDigits n cs with
      | (ds, r) => (c :: ds, r)
    else ([], c :: cs)

/-- Fields of a parsed %H:%M:%S,%f timecode; micro is the %f field
right-padded with zeros to six digits, as strptime does. -/
structure TimeFields where
  hour : ℕ
  minute : ℕ
  second : ℕ
  micro : ℕ
  deriving DecidableEq, Repr

/-- datetime.strptime(s, '%H:%M:%S,%f') on a character list: the whole
string must match, and seconds 60 and 61 (accepted by the %S pattern)
are rejected by the datetime constructor. -/
def strptimeHMSf (cs : List Char) : Option TimeFields :=
  match parse2 23 cs with
  | none => none
  | some (h, r1) =>
    match expectCh ':' r1 with
    | none => none
    | some r2 =>
      match parse2 59 r2 with
      | none => none
      | some (mi, r3) =>
        match expectCh ':' r3 with
        | none => none
        | some r4 =>
          match parse2 61 r4 with
          | none => none
          | some (s, r5) =>
            match expectCh ',' r5 with
            | none => none
            | some r6 =>
              match takeDigits 6 r6 with
              | (ds, r7) =>
                if ds.length = 0 then none
                else if r7 ≠ [] then none
                else if s ≤ 59 then
                  some ⟨h, mi, s, digitsVal ds * 10 ^ (6 - ds.length)⟩
                else none

/-! ### IEEE-754 doubles (timecode_to_sec, lines 85-97)

timecode_to_sec computes
  time.hour * 60 * 60 + time.minute * 60 + time.second
    + time.microsecond / 1000000
where the first three terms are exact Python integer arithmetic and the
division and the final addition are IEEE-754 double operations, each
correctly rounded to nearest, ties to even.  A nonnegative double is the
exact rational m / 2^t; rounding is explicit below. -/

/-- Floor of log base 2, with fuel; 0 for input 0. -/
def floorLog2 : ℕ → ℕ → ℕ
  | 0, _ => 0
  | f + 1, n => if 2 ≤ n then floorLog2 f (n / 2) + 1 else 0

/-- Round a/b to the nearest integer, ties to even (b positive). -/
def rheDiv (a b : ℕ) : ℕ :=
  let q := a / b
  let r := a % b
  if 2 * r < b then q else if b < 2 * r then q + 1 else if q % 2 = 0 then q else q + 1

/-- A nonnegative double, held exactly as the rational m / 2^t. -/
structure F where
  m : ℕ
  t : ℕ
  deriving DecidableEq, Repr

/-- Exact value of a double. -/
def F.val (x : F) : ℚ := (x.m : ℚ) / 2 ^ x.t

/-- The double time.microsecond / 1000000 (true division, round to
nearest-even at 53 significant bits).  For 0 < micro < 10^6 the value
lies in [2^-(t0+1), 2^-t0), and the significand is the rounding of
micro * 2^(52+t0+1) / 10^6 ... the exponent t0+1 below is found from the
floor of log2 of 10^6 / micro. -/
def floatDivMicro (micro : ℕ) : F :=
  if micro = 0 then ⟨0, 0⟩
  else
    let f := floorLog2 200 (1000000 / micro)
    let t0 := if micro * 2 ^ f = 1000000 then f else f + 1
    ⟨rheDiv (micro * 2 ^ (52 + t0)) 1000000, 52 + t0⟩

/-- The double X + d for a natural X (exact in double up to 2^53) and a
double d: the exact sum N / 2^t is kept when N < 2^53 and otherwise
rounded to 53 significant bits, ties to even. -/
def floatAddNat (X : ℕ) (d : F) : F :=
  let N := X * 2 ^ d.t + d.m
  if N < 2 ^ 53 then ⟨N, d.t⟩
  else
    let j := floorLog2 200 N - 52
    ⟨rheDiv N (2 ^ j), d.t - j⟩

/-- timecode_to_sec (lines 85-97): hour, minute, second combined by exact
integer arithmetic, microseconds by float division, and one float
addition.  Python guarantees hour <= 23 via strptime. -/
def timecode_to_sec (tf : TimeFields) : F :=
  floatAddNat (tf.hour * 60 * 60 + tf.minute * 60 + tf.second) (floatDivMicro tf.micro)

/-- The exact value the specification ascribes to a timecode:
H*3600 + M*60 + S + ms/1000, with micro = ms*1000. -/
def exactSec (tf : TimeFields) : ℚ :=
  (tf.hour : ℚ) * 3600 + (tf.minute : ℚ) * 60 + (tf.second : ℚ) + (tf.micro : ℚ) / 1000000

/-! ### decimal.Decimal (lines 74-77 cast the float start/end times;
line 198 casts the float shift; lines 142-143 add them) -/

/-- A Decimal: integer coefficient times 10^exp.  The default context
(prec 28, ROUND_HALF_EVEN) governs arithmetic. -/
structure Dec where
  coeff : ℤ
  exp : ℤ
  deriving DecidableEq, Repr

/-- Exact value of a Decimal. -/
def Dec.val (d : Dec) : ℚ := (d.coeff : ℚ) * 10 ^ d.exp

/-- Number of factors of 2, with fuel; 0 for input 0. -/
def tz : ℕ → ℕ → ℕ
  | 0, _ => 0
  | f + 1, n => if n % 2 = 0 ∧ n ≠ 0 then tz f (n / 2) + 1 else 0

/-- Decimal(float): convert exactly.  float.as_integer_ratio reduces
m / 2^t to lowest terms n / 2^k, and Decimal stores n * 5^k with
exponent -k. -/
def Dec.fromFloat (x : F) : Dec :=
  let v := min (tz 200 x.m) x.t
  let n := x.m / 2 ^ v
  let k := x.t - v
  ⟨(n : ℤ) * 5 ^ k, -(k : ℤ)⟩

/-- Number of decimal digits of an integer (1 for 0), with fuel 200:
correct below 10^200, and guaranteed at least 201 above 10^200. -/
def dig10 : ℕ → ℕ → ℕ
  | 0, _ => 1
  | f + 1, n => if n < 10 then 1 else dig10 f (n / 10) + 1

/-- Decimal coefficient length as tested by the context precision. -/
def numDigits (c : ℤ) : ℕ := dig10 200 c.natAbs

/-- Round c/b to the nearest integer, ties to even, for an integer c and
positive b (the ROUND_HALF_EVEN rescale of the decimal context); the
Euclidean quotient and remainder put the remainder in [0, b). -/
def rheDivI (c : ℤ) (b : ℕ) : ℤ :=
  let q := c.ediv (b : ℤ)
  let r := c.emod (b : ℤ)
  if 2 * r < b then q else if (b : ℤ) < 2 * r then q + 1 else if q % 2 = 0 then q else q + 1

/-- Deliver a coefficient and exponent under the default context: a
coefficient of more than 28 significant digits is rounded half-even at
the 28th, with a carry possibly shortening it once more.  (Coefficients
beyond 10^200 are outside the fuel of dig10 and outside the reachable
range of this program.) -/
def decRound28 (c : ℤ) (e : ℤ) : Dec :=
  if numDigits c ≤ 28 then ⟨c, e⟩
  else
    let k := numDigits c - 28
    let q := rheDivI c (10 ^ k)
    if numDigits q ≤ 28 then ⟨q, e + k⟩ else ⟨q.ediv 10, e + k + 1⟩

/-- The exact sum of the coefficients of two Decimals aligned at the
smaller exponent. -/
def alignC (a b : Dec) : ℤ :=
  a.coeff * 10 ^ (a.exp - min a.exp b.exp).toNat +
    b.coeff * 10 ^ (b.exp - min a.exp b.exp).toNat

/-- Decimal addition under the default context: align the exponents, add
the coefficients exactly, and round to the context precision. -/
def decAdd (a b : Dec) : Dec :=
  decRound28 (alignC a b) (min a.exp b.exp)

/-- Negation of a Decimal (exact). -/
def decNeg (d : Dec) : Dec := ⟨-d.coeff, d.exp⟩

/-- int(d): truncate toward zero. -/
def Dec.trunc (d : Dec) : ℤ :=
  if 0 ≤ d.exp then d.coeff * 10 ^ d.exp.toNat else d.coeff.tdiv (10 ^ (-d.exp).toNat)

/-- d - n for a Python int n: the int is converted exactly and the
context subtraction is an addition of the negation. -/
def decSubInt (d : Dec) (n : ℤ) : Dec := decAdd d ⟨-n, 0⟩

/-- divmod(d, 60) on a Decimal: the quotient truncates toward zero and
carries exponent 0; the remainder is computed at exponent min(exp, 0)
and delivered at the context precision. -/
def decDivmod60 (d : Dec) : Dec × Dec :=
  let q : ℤ :=
    if 0 ≤ d.exp then (d.coeff * 10 ^ d.exp.toNat).tdiv 60
    else d.coeff.tdiv (60 * 10 ^ (-d.exp).toNat)
  let er := min d.exp 0
  let rc := d.coeff * 10 ^ (d.exp - er).toNat - q * 60 * 10 ^ (-er).toNat
  (⟨q, 0⟩, decRound28 rc er)

/-- Repeat a character. -/
def repCh : ℕ → Char → List Char
  | 0, _ => []
  | n + 1, c => c :: repCh n c

/-- str(d) for a Decimal: the to-scientific-string conversion of the
decimal arithmetic specification, which Python's Decimal.__str__
implements: plain notation when exp <= 0 and the adjusted exponent is
at least -6, scientific notation otherwise. -/
def Dec.str (d : Dec) : List Char :=
  let sign : List Char := if d.coeff < 0 then ['-'] else []
  let ds := (toString d.coeff.natAbs).data
  let adj : ℤ := d.exp + (ds.length : ℤ) - 1
  if d.exp ≤ 0 ∧ -6 ≤ adj then
    if d.exp = 0 then sign ++ ds
    else if (ds.length : ℤ) ≤ -d.exp then
      sign ++ ('0' :: '.' :: (repCh ((-d.exp).toNat - ds.length) '0' ++ ds))
    else
      sign ++ (ds.take (ds.length - (-d.exp).toNat) ++ '.' :: ds.drop (ds.length - (-d.exp).toNat))
  else
    let head := ds.take 1
    let tail := ds.drop 1
    sign ++ head ++ (if tail.isEmpty then [] else '.' :: tail) ++
      ('E' :: (if 0 ≤ adj then '+' :: (toString adj).data else (toString adj).data))

/-- Python '%02d' % d: truncate to an int and zero-pad to width 2. -/
def fmt02 (n : ℤ) : List Char :=
  let s := (toString n).data
  if s.length < 2 then '0' :: s else s

/-- Python slicing s[2:5]. -/
def slice25 (s : List Char) : List Char := (s.drop 2).take 3

/-- sec_to_timecode (lines 99-114): the millisecond text is the slice
[2:5] of str(sec - int(sec)) (unpadded), the fields come from two
divmods by 60, each formatted with %02d. -/
def sec_to_timecode (sec : Dec) : List Char :=
  let ms := slice25 (Dec.str (decSubInt sec sec.trunc))
  let p1 := decDivmod60 sec
  let p2 := decDivmod60 p1.1
  fmt02 p2.1.trunc ++ ':' :: fmt02 p2.2.trunc ++ ':' :: fmt02 p1.2.trunc ++ ',' :: ms

/-! ### Subtitle entries, parsing (lines 38-83) and writing (lines 123-157) -/

/-- The index field: parsed as text (line 65); renumbering replaces it
with a Python int (line 138), which is a distinct runtime type. -/
inductive IndexV where
  | txt (s : List Char)
  | int (n : ℤ)
  deriving DecidableEq, Repr

/-- The namedtuple Subtitle(index, start, end, content); the end field is
named stop because end is reserved in Lean. -/
structure Subtitle where
  index : IndexV
  start : Dec
  stop : Dec
  content : List (List Char)
  deriving DecidableEq, Repr

/-- Failures of a run: sys.exit in parse_file (line 83), sys.exit in
write_new_file (line 157), ValueError from strptime or tuple unpacking,
TypeError from int + str. -/
inductive PErr where
  | firstStageExit
  | secondStageExit
  | valueError
  | typeError
  deriving DecidableEq, Repr

/-- The per-chunk body of parse_file for a chunk of at least 3 lines:
strip every line, take the index line, split the time line on ' --> '
into exactly two timecodes, decode each with strptime and store the
Decimal cast of the float seconds.  Returns none where Python raises
ValueError. -/
def parseChunk (c : List (List Char)) : Option Subtitle :=
  match c.map pyStrip with
  | idx :: timeline :: content =>
    match splitArrow timeline with
    | [st, en] =>
      match strptimeHMSf st, strptimeHMSf en with
      | some t1, some t2 =>
        some ⟨.txt idx, Dec.fromFloat (timecode_to_sec t1),
              Dec.fromFloat (timecode_to_sec t2), content⟩
      | _, _ => none
    | _ => none
  | _ => none

/-- The parse_file loop over the chunks: chunks of fewer than 3 lines are
skipped by the guard on line 61, any ValueError aborts the run. -/
def parseGo : List (List (List Char)) → List Subtitle → Except PErr (List Subtitle)
  | [], acc => .ok acc
  | c :: rest, acc =>
    if 3 ≤ c.length then
      match parseChunk c with
      | some e => parseGo rest (acc ++ [e])
      | none => .error .valueError
    else parseGo rest acc

/-- parse_file (lines 38-83): sys.exit when there are no chunks at all,
otherwise the loop above. -/
def parse_file (chunks : List (List (List Char))) : Except PErr (List Subtitle) :=
  if chunks.isEmpty then .error .firstStageExit else parseGo chunks []

/-- The value updates of the write_new_file loop body (lines 137-143):
replace the index by the counter when fix_indices is true, then add the
shift to start and end with Decimal context arithmetic. -/
def transformOne (shift : Dec) (fix : Bool) (i : ℕ) (e : Subtitle) : Subtitle :=
  let e1 := if fix then { e with index := .int (i : ℤ) } else e
  { e1 with start := decAdd e1.start shift, stop := decAdd e1.stop shift }

/-- The transformed entries in loop order; the counter i starts at 1 and
is incremented only when fix_indices is true (line 139). -/
def transformGo (shift : Dec) (fix : Bool) : ℕ → List Subtitle → List Subtitle
  | _, [] => []
  | i, e :: rest =>
    transformOne shift fix i e :: transformGo shift fix (if fix then i + 1 else i) rest

/-- The shift/renumber transform applied by write_new_file. -/
def transform_subs (subs : List Subtitle) (shift : Dec) (fix : Bool) : List Subtitle :=
  transformGo shift fix 1 subs

/-- The text written for one entry (lines 145-154): index line, time
range line, content lines, and one blank separator line. -/
def renderEntry (idx : List Char) (e : Subtitle) : List Char :=
  idx ++ '\n' :: (sec_to_timecode e.start ++ " --> ".data ++ sec_to_timecode e.stop ++ '\n' ::
    ((e.content.map (fun c => c ++ ['\n'])).foldr (· ++ ·) ['\n']))

/-- The write loop over transformed entries: writing the index line
computes sub.index + '\n', a TypeError when the index is an int (the
renumbering path); the entries before the failure have already been
written. -/
def writeGo : List Subtitle → List Char → List Char × Option PErr
  | [], acc => (acc, none)
  | e :: rest, acc =>
    match e.index with
    | .int _ => (acc, some .typeError)
    | .txt s => writeGo rest (acc ++ renderEntry s e)

/-- write_new_file (lines 123-157): sys.exit without touching the file
when there are no parsed entries; otherwise the output file is opened in
append mode 'a' (line 133), so writing starts after the pre-existing
content, given here as existing. -/
def write_new_file (existing : List Char) (subs : List Subtitle) (shift : Dec)
    (fix : Bool) : List Char × Option PErr :=
  if subs.isEmpty then (existing, some .secondStageExit)
  else writeGo (transform_subs subs shift fix) existing

/-! ### C8: the chunk splitter -/

theorem splitBlanks_ne_nil (ls : List (List Char)) : splitBlanks ls ≠ [] := by
  match ls with
  | [] => simp [splitBlanks]
  | l :: ls =>
    unfold splitBlanks
    by_cases h : blankLine l <;> simp [h]
    cases splitBlanks ls <;> simp

theorem filterNE_cons (c : List (List Char)) (t : List (List (List Char))) :
    (c :: t).filter (fun x => !x.isEmpty) =
      if c = [] then t.filter (fun x => !x.isEmpty)
      else c :: t.filter (fun x => !x.isEmpty) := by
  cases c <;> simp [List.filter]

theorem chunkGo_splitBlanks (ls : List (List Char)) : ∀ cur : List (List Char),
    chunkGo ls cur =
      (if cur.reverse ++ (splitBlanks ls).headD [] = [] then []
        else [cur.reverse ++ (splitBlanks ls).headD []]) ++
      ((splitBlanks ls).tail.filter (fun c => !c.isEmpty)) := by
  induction ls with
  | nil =>
    intro cur
    simp only [chunkGo, splitBlanks, List.headD, List.tail, List.filter, List.append_nil]
    by_cases h : cur = [] <;> simp [h]
  | cons l ls ih =>
    intro cur
    by_cases hb : blankLine l
    · obtain ⟨h0, t0, hsp⟩ : ∃ h0 t0, splitBlanks ls = h0 :: t0 := by
        rcases hx : splitBlanks ls with _ | ⟨h0, t0⟩
        · exact absurd hx (splitBlanks_ne_nil ls)
        · exact ⟨h0, t0, rfl⟩
      have hgo : chunkGo ls [] =
          (if h0 = [] then [] else [h0]) ++ (t0.filter (fun c => !c.isEmpty)) := by
        rw [ih []]
        simp [hsp]
      have hfil : (splitBlanks ls).filter (fun c => !c.isEmpty) =
          (if h0 = [] then [] else [h0]) ++ (t0.filter (fun c => !c.isEmpty)) := by
        rw [hsp, filterNE_cons]
        by_cases h : h0 = [] <;> simp [h]
      show chunkGo (l :: ls) cur = _
      unfold chunkGo
      rw [if_pos hb]
      unfold splitBlanks
      rw [if_pos hb]
      by_cases hc : cur = []
      · subst hc
        simp [hgo, hfil]
      · have : cur.isEmpty = false := by simpa using hc
        simp only [this, Bool.false_eq_true, if_false, List.headD, List.tail]
        rw [hgo, hfil.symm]
        have hrev : cur.reverse ≠ [] := by simpa using hc
        simp [hrev]
    · obtain ⟨h0, t0, hsp⟩ : ∃ h0 t0, splitBlanks ls = h0 :: t0 := by
        rcases hx : splitBlanks ls with _ | ⟨h0, t0⟩
        · exact absurd hx (splitBlanks_ne_nil ls)
        · exact ⟨h0, t0, rfl⟩
      show chunkGo (l :: ls) cur = _
      unfold chunkGo
      rw [if_neg hb]
      unfold splitBlanks
      rw [if_neg hb, hsp]
      rw [ih (l :: cur)]
      have h2 : cur.reverse ++ (l :: h0) ≠ [] := by simp
      simp [hsp, h2]

theorem splitBlanks_mem_nonblank (ls : List (List Char)) :
    ∀ c ∈ splitBlanks ls, ∀ l ∈ c, blankLine l = false := by
  induction ls with
  | nil =>
    intro c hc
    simp only [splitBlanks, List.mem_singleton] at hc
    simp [hc]
  | cons l ls ih =>
    intro c hc
    unfold splitBlanks at hc
    by_cases hb : blankLine l
    · rw [if_pos hb] at hc
      rw [List.mem_cons] at hc
      rcases hc with hc | hc
      · simp [hc]
      · exact ih c hc
    · rw [if_neg hb] at hc
      rcases hx : splitBlanks ls with _ | ⟨h0, t0⟩
      · exact absurd hx (splitBlanks_ne_nil ls)
      · rw [hx, List.mem_cons] at hc
        rcases hc with hc | hc
        · subst hc
          intro x hx2
          rw [List.mem_cons] at hx2
          rcases hx2 with hx2 | hx2
          · subst hx2
            simpa using hb
          · exact ih h0 (by simp [hx]) x hx2
        · exact ih c (by simp [hx, hc])

theorem splitBlanks_all_nonblank (ls : List (List Char))
    (h : ∀ l ∈ ls, blankLine l = false) : splitBlanks ls = [ls] := by
  induction ls with
  | nil => simp [splitBlanks]
  | cons l ls ih =>
    have hl : blankLine l = false := h l (by simp)
    have hrest : ∀ x ∈ ls, blankLine x = false := fun x hx => h x (by simp [hx])
    unfold splitBlanks
    rw [ih hrest]
    simp [hl]

theorem splitBlanks_all_blank (ls : List (List Char))
    (h : ∀ l ∈ ls, blankLine l = true) :
    (splitBlanks ls).filter (fun c => !c.isEmpty) = [] := by
  induction ls with
  | nil => simp [splitBlanks]
  | cons l ls ih =>
    have hl : blankLine l = true := h l (by simp)
    have hrest : ∀ x ∈ ls, blankLine x = true := fun x hx => h x (by simp [hx])
    unfold splitBlanks
    rw [if_pos hl]
    simpa [List.filter] using ih hrest

/-- C8: chunk_subs partitions the file lines into the maximal runs of
non-blank lines separated by runs of whitespace-only lines (it equals
cutting at every blank line and discarding the empty pieces, so leading
and trailing blank runs produce no empty chunks and every chunk is a
nonempty run of non-blank lines); a nonempty file with no blank line
yields exactly the one chunk holding the whole file, and a file of only
blank lines yields no chunks. -/
theorem chunk_subs_characterization (lines : List (List Char)) :
    chunk_subs lines = (splitBlanks lines).filter (fun c => !c.isEmpty) ∧
    (∀ c ∈ chunk_subs lines, c ≠ [] ∧ ∀ l ∈ c, blankLine l = false) ∧
    (lines ≠ [] → (∀ l ∈ lines, blankLine l = false) → chunk_subs lines = [lines]) ∧
    ((∀ l ∈ lines, blankLine l = true) → chunk_subs lines = []) := by
  have hmain : chunk_subs lines = (splitBlanks lines).filter (fun c => !c.isEmpty) := by
    unfold chunk_subs
    rw [chunkGo_splitBlanks lines []]
    rcases hx : splitBlanks lines with _ | ⟨h0, t0⟩
    · exact absurd hx (splitBlanks_ne_nil lines)
    · rw [filterNE_cons]
      by_cases h : h0 = [] <;> simp [h]
  refine ⟨hmain, ?_, ?_, ?_⟩
  · intro c hc
    rw [hmain] at hc
    obtain ⟨hmem, hne⟩ := List.mem_filter.mp hc
    refine ⟨by simpa using hne, splitBlanks_mem_nonblank lines c hmem⟩
  · intro hne hall
    rw [hmain, splitBlanks_all_nonblank lines hall]
    simp [hne]
  · intro hall
    rw [hmain]
    exact splitBlanks_all_blank lines hall

/-- C8 witness: a two-line file with no blank line gives one chunk. -/
theorem chunk_subs_witness :
    chunk_subs ["a".data, "b".data] = [["a".data, "b".data]] :=
  (chunk_subs_characterization ["a".data, "b".data]).2.2.1 (by decide) (by decide)

/-! ### C1: short chunks are silently skipped, not fatal -/

theorem parseGo_filterMap (chunks : List (List (List Char))) :
    ∀ acc, (∀ c ∈ chunks, 3 ≤ c.length → (parseChunk c).isSome) →
      parseGo chunks acc =
        .ok (acc ++ chunks.filterMap fun c => if 3 ≤ c.length then parseChunk c else none) := by
  induction chunks with
  | nil => intro acc _; simp [parseGo]
  | cons c rest ih =>
    intro acc hwf
    unfold parseGo
    by_cases hlen : 3 ≤ c.length
    · have hs := hwf c (by simp) hlen
      obtain ⟨e, he⟩ := Option.isSome_iff_exists.mp hs
      rw [if_pos hlen, he]
      show parseGo rest (acc ++ [e]) = _
      rw [ih (acc ++ [e]) (fun d hd h3 => hwf d (by simp [hd]) h3)]
      simp [List.filterMap_cons, hlen, he]
    · rw [if_neg hlen]
      rw [ih acc (fun d hd h3 => hwf d (by simp [hd]) h3)]
      simp [List.filterMap_cons, hlen]

/-- C1 amended: parse_file does not reject a chunk of fewer than 3 lines
and does not abort the run on it; the guard on line 61 silently skips it,
and the entries of all chunks with at least 3 lines (provided their time
lines parse) are still produced, in order.  Only when no entry at all
results does the run stop without writing output, via the sys.exit in
write_new_file. -/
theorem parse_file_skips_short_chunks (chunks : List (List (List Char)))
    (hne : chunks ≠ [])
    (hwf : ∀ c ∈ chunks, 3 ≤ c.length → (parseChunk c).isSome) :
    parse_file chunks =
      .ok (chunks.filterMap fun c => if 3 ≤ c.length then parseChunk c else none) ∧
    ∀ existing shift fix,
      (chunks.filterMap fun c => if 3 ≤ c.length then parseChunk c else none) = [] →
      write_new_file existing
          (chunks.filterMap fun c => if 3 ≤ c.length then parseChunk c else none)
          shift fix = (existing, some .secondStageExit) := by
  constructor
  · unfold parse_file
    rw [if_neg (by simpa using hne)]
    simpa using parseGo_filterMap chunks [] hwf
  · intro existing shift fix hempty
    rw [hempty]
    simp [write_new_file]

/-- C1 counterexample: a run over a 2-line chunk followed by a well-formed
3-line chunk does not fail, produces the entry of the second chunk, and
write_new_file then writes output, contradicting the claim that any short
chunk makes parsing fail with MalformedEntry, aborts the run with no entry
produced and leaves no output. -/
theorem parse_file_short_chunk_counterexample :
    parse_file [["1".data, "00:00:01,000 --> 00:00:02,000".data],
                ["2".data, "00:00:03,000 --> 00:00:04,000".data, "Hi".data]] =
      .ok [⟨.txt "2".data, ⟨3, 0⟩, ⟨4, 0⟩, ["Hi".data]⟩] ∧
    (write_new_file [] [⟨.txt "2".data, ⟨3, 0⟩, ⟨4, 0⟩, ["Hi".data]⟩] ⟨0, 0⟩ false).2 = none ∧
    (write_new_file [] [⟨.txt "2".data, ⟨3, 0⟩, ⟨4, 0⟩, ["Hi".data]⟩] ⟨0, 0⟩ false).1 ≠ [] := by
  refine ⟨by rfl, by decide, by decide⟩

/-- C1 witness: the amended theorem applied to a single short chunk. -/
theorem parse_file_skips_short_chunks_witness :
    parse_file [["1".data, "00:00:01,000 --> 00:00:02,000".data]] = .ok [] := by
  have h := (parse_file_skips_short_chunks
    [["1".data, "00:00:01,000 --> 00:00:02,000".data]] (by decide) (by decide)).1
  simpa using h

/-! ### C3: renumbering crashes with a TypeError -/

/-- C3 is a code bug: with fix_indices true the loop replaces the index
by the Python int i (line 138), and writing then evaluates
sub.index + a newline string (line 145), an int-plus-str TypeError, so
the renumbered indices are never written; the entries before the first
write are already shifted in memory but nothing is emitted. -/
theorem write_renumber_type_error (existing : List Char) (subs : List Subtitle)
    (shift : Dec) (hne : subs ≠ []) :
    write_new_file existing subs shift true = (existing, some .typeError) := by
  obtain ⟨e, rest, rfl⟩ := List.exists_cons_of_ne_nil hne
  simp [write_new_file, transform_subs, transformGo, transformOne, writeGo]

/-- C3 witness: one entry, renumbering requested, TypeError and no text. -/
theorem write_renumber_type_error_witness :
    write_new_file [] [⟨.txt "1".data, ⟨1, 0⟩, ⟨5, -1⟩, ["Hi".data]⟩] ⟨0, 0⟩ true =
      ([], some .typeError) :=
  write_renumber_type_error [] [⟨.txt "1".data, ⟨1, 0⟩, ⟨5, -1⟩, ["Hi".data]⟩] ⟨0, 0⟩
    (by decide)

/-! ### C10: the output file is opened in append mode -/

theorem writeGo_append (subs : List Subtitle) :
    ∀ acc, writeGo subs acc = (acc ++ (writeGo subs []).1, (writeGo subs []).2) := by
  induction subs with
  | nil => intro acc; simp [writeGo]
  | cons e rest ih =>
    intro acc
    obtain ⟨idx, st, en, co⟩ := e
    cases idx with
    | int n => simp [writeGo]
    | txt s =>
      show writeGo rest (acc ++ renderEntry s ⟨.txt s, st, en, co⟩) = _
      rw [ih (acc ++ renderEntry s ⟨.txt s, st, en, co⟩)]
      conv_rhs => rw [show writeGo (⟨.txt s, st, en, co⟩ :: rest) [] =
        writeGo rest ([] ++ renderEntry s ⟨.txt s, st, en, co⟩) from rfl]
      rw [ih ([] ++ renderEntry s ⟨.txt s, st, en, co⟩)]
      simp

/-- C10: write_new_file opens the output path in append mode (line 133),
so whatever content the file already has stays put and the rendered
entries (or nothing, on the failure paths) are appended after it. -/
theorem write_new_file_appends (existing : List Char) (subs : List Subtitle)
    (shift : Dec) (fix : Bool) :
    (write_new_file existing subs shift fix).1 =
      existing ++ (write_new_file [] subs shift fix).1 ∧
    (write_new_file existing subs shift fix).2 = (write_new_file [] subs shift fix).2 := by
  unfold write_new_file
  by_cases h : subs.isEmpty
  · simp [h]
  · rw [if_neg h, if_neg h, writeGo_append (transform_subs subs shift fix) existing]
    simp

/-! ### C2 and C5: the millisecond field of sec_to_timecode is not padded -/

/-- The encode of a decode, composed exactly as the pipeline does: the
float returned by timecode_to_sec is stored as a Decimal (lines 76-77)
and sec_to_timecode renders that Decimal. -/
def timecodeRoundTrip (s : List Char) : Option (List Char) :=
  (strptimeHMSf s).map fun t => sec_to_timecode (Dec.fromFloat (timecode_to_sec t))

/-- C2 is a code bug: the round trip is broken because sec_to_timecode
takes the slice [2:5] of str(sec - int(sec)) without restoring the
leading zeros or the width of the millisecond field, so the in-range
string 00:00:00,500 decodes to exactly one half and re-encodes as
00:00:00,5 instead of itself. -/
theorem timecode_roundtrip_broken :
    timecodeRoundTrip "00:00:00,500".data = some "00:00:00,5".data ∧
    "00:00:00,5".data ≠ "00:00:00,500".data :=
  ⟨by rfl, by decide⟩

/-- C5 is a code bug: encoding the exactly representable Duration 0.5
(the Decimal 0.5, as stored for the timecode 00:00:00,500) yields
00:00:00,5 whose millisecond field has 1 digit, not the claimed exactly
3 zero-padded digits. -/
theorem sec_to_timecode_pad_bug :
    Dec.fromFloat (timecode_to_sec ⟨0, 0, 0, 500000⟩) = ⟨5, -1⟩ ∧
    sec_to_timecode ⟨5, -1⟩ = "00:00:00,5".data ∧
    sec_to_timecode ⟨5, -1⟩ ≠ "00:00:00,500".data :=
  ⟨by rfl, by rfl, by decide⟩

/-! ### Decimal context arithmetic: exactness, rounding and sign -/

theorem dig10_pos (f n : ℕ) : 1 ≤ dig10 f n := by
  cases f with
  | zero => simp [dig10]
  | succ f =>
    unfold dig10
    by_cases h : n < 10 <;> simp [h]

theorem dig10_lower (f : ℕ) : ∀ n : ℕ, 10 ^ (dig10 f n - 1) ≤ max n 1 := by
  induction f with
  | zero => intro n; simp [dig10]
  | succ f ih =>
    intro n
    by_cases h : n < 10
    · have hstep : dig10 (f + 1) n = 1 := by simp [dig10, h]
      rw [hstep]
      simp
    · have hstep : dig10 (f + 1) n = dig10 f (n / 10) + 1 := by simp [dig10, h]
      rw [hstep]
      have h10 : 10 ≤ n := by omega
      have hpow : 10 ^ (dig10 f (n / 10) + 1 - 1) = 10 * 10 ^ (dig10 f (n / 10) - 1) := by
        rw [Nat.add_sub_cancel, ← pow_succ']
        congr 1
        have := dig10_pos f (n / 10)
        omega
      rw [hpow]
      have hdiv1 : 1 ≤ n / 10 := Nat.one_le_div_iff (by norm_num) |>.mpr h10
      have hmax : max (n / 10) 1 = n / 10 := by omega
      have hih := ih (n / 10)
      rw [hmax] at hih
      have hmd : 10 * (n / 10) ≤ n := by omega
      calc 10 * 10 ^ (dig10 f (n / 10) - 1) ≤ 10 * (n / 10) := by omega
        _ ≤ n := hmd
        _ ≤ max n 1 := le_max_left _ _

theorem dig10_upper (f : ℕ) : ∀ n : ℕ, dig10 f n ≤ f → n < 10 ^ dig10 f n := by
  induction f with
  | zero => intro n h; exact absurd (dig10_pos 0 n) (by omega)
  | succ f ih =>
    intro n h
    by_cases hn : n < 10
    · have hstep : dig10 (f + 1) n = 1 := by simp [dig10, hn]
      rw [hstep]
      simpa using hn
    · have hstep : dig10 (f + 1) n = dig10 f (n / 10) + 1 := by simp [dig10, hn]
      rw [hstep] at h ⊢
      have hih := ih (n / 10) (by omega)
      have h9 : n ≤ 10 * (n / 10) + 9 := by omega
      calc n ≤ 10 * (n / 10) + 9 := h9
        _ < 10 * 10 ^ dig10 f (n / 10) := by omega
        _ = 10 ^ (dig10 f (n / 10) + 1) := (pow_succ' 10 _).symm

theorem numDigits_lower (c : ℤ) (hc : c ≠ 0) : (10 : ℤ) ^ (numDigits c - 1) ≤ |c| := by
  have h := dig10_lower 200 c.natAbs
  have hab : 1 ≤ c.natAbs := Int.natAbs_pos.mpr hc
  have hmax : max c.natAbs 1 = c.natAbs := by omega
  rw [hmax] at h
  have h2 : ((10 : ℕ) ^ (numDigits c - 1) : ℤ) ≤ (c.natAbs : ℤ) := by exact_mod_cast h
  calc (10 : ℤ) ^ (numDigits c - 1) = ((10 : ℕ) ^ (numDigits c - 1) : ℤ) := by push_cast; ring
    _ ≤ (c.natAbs : ℤ) := h2
    _ = |c| := (Int.abs_eq_natAbs c).symm

theorem rheDivI_close (c : ℤ) (b : ℕ) (hb : 0 < b) :
    |((rheDivI c b : ℤ) : ℚ) - (c : ℚ) / (b : ℚ)| ≤ 1 / 2 := by
  have hbz : ((b : ℤ) : ℚ) ≠ 0 := by
    have : (0 : ℚ) < ((b : ℤ) : ℚ) := by exact_mod_cast hb
    exact ne_of_gt this
  have hbq : (0 : ℚ) < (b : ℚ) := by exact_mod_cast hb
  have hdm : (b : ℤ) * (c.ediv b) + c.emod b = c := Int.ediv_add_emod c b
  have hr0 : (0 : ℤ) ≤ c.emod b := Int.emod_nonneg c (by exact_mod_cast hb.ne')
  have hrb : c.emod b < b := Int.emod_lt_of_pos c (by exact_mod_cast hb)
  have hc2 : (c : ℚ) = ((c.ediv b : ℤ) : ℚ) * (b : ℚ) + ((c.emod b : ℤ) : ℚ) := by
    exact_mod_cast (by linarith [hdm] : c = (c.ediv b) * (b : ℤ) + c.emod b)
  have hcq : (c : ℚ) / (b : ℚ) = ((c.ediv b : ℤ) : ℚ) + ((c.emod b : ℤ) : ℚ) / (b : ℚ) := by
    rw [hc2]
    field_simp
  unfold rheDivI
  by_cases h1 : 2 * c.emod b < (b : ℤ)
  · rw [if_pos h1]
    rw [hcq]
    have hlt : ((c.emod b : ℤ) : ℚ) / (b : ℚ) < 1 / 2 := by
      rw [div_lt_div_iff₀ hbq (by norm_num)]
      have : (2 : ℚ) * ((c.emod b : ℤ) : ℚ) < (b : ℚ) := by exact_mod_cast h1
      linarith
    have hge : (0 : ℚ) ≤ ((c.emod b : ℤ) : ℚ) / (b : ℚ) := by
      apply div_nonneg _ hbq.le
      exact_mod_cast hr0
    rw [abs_le]
    constructor <;> [linarith; linarith]
  · rw [if_neg h1]
    by_cases h2 : (b : ℤ) < 2 * c.emod b
    · rw [if_pos h2, hcq]
      have hlt : 1 / 2 < ((c.emod b : ℤ) : ℚ) / (b : ℚ) := by
        rw [div_lt_div_iff₀ (by norm_num) hbq]
        have : (b : ℚ) < 2 * ((c.emod b : ℤ) : ℚ) := by exact_mod_cast h2
        linarith
      have hle : ((c.emod b : ℤ) : ℚ) / (b : ℚ) < 1 := by
        rw [div_lt_one hbq]
        exact_mod_cast hrb
      rw [abs_le]
      push_cast
      constructor <;> linarith
    · have heq : 2 * c.emod b = (b : ℤ) := by omega
      have hhalf : ((c.emod b : ℤ) : ℚ) / (b : ℚ) = 1 / 2 := by
        rw [div_eq_div_iff (ne_of_gt hbq) (by norm_num : (2 : ℚ) ≠ 0)]
        have h3 : (c.emod b) * 2 = (b : ℤ) := by omega
        have h3q : ((c.emod b : ℤ) : ℚ) * 2 = (b : ℚ) := by exact_mod_cast h3
        linarith
      rw [if_neg h2, hcq, hhalf]
      by_cases h3 : (c.ediv b) % 2 = 0 <;> [rw [if_pos h3]; rw [if_neg h3]] <;>
        · push_cast
          rw [abs_le]
          constructor <;> linarith

theorem zpow10_pos (e : ℤ) : (0 : ℚ) < 10 ^ e := zpow_pos (by norm_num) e

theorem pow_align (x e : ℤ) (h : e ≤ x) :
    (10 : ℚ) ^ ((x - e).toNat) * (10 : ℚ) ^ e = (10 : ℚ) ^ x := by
  rw [← zpow_natCast (10 : ℚ) (x - e).toNat, Int.toNat_of_nonneg (by omega),
    ← zpow_add₀ (by norm_num : (10 : ℚ) ≠ 0)]
  congr 1
  omega

theorem alignC_val (a b : Dec) :
    ((alignC a b : ℤ) : ℚ) * (10 : ℚ) ^ (min a.exp b.exp) = a.val + b.val := by
  have ha := pow_align a.exp (min a.exp b.exp) (min_le_left _ _)
  have hb := pow_align b.exp (min a.exp b.exp) (min_le_right _ _)
  unfold alignC Dec.val
  push_cast
  rw [add_mul, mul_assoc, mul_assoc, ha, hb]

theorem decRound28_exact (c e : ℤ) (h : numDigits c ≤ 28) : decRound28 c e = ⟨c, e⟩ := by
  simp [decRound28, h]

theorem decAdd_val_exact (a b : Dec) (h : numDigits (alignC a b) ≤ 28) :
    (decAdd a b).val = a.val + b.val := by
  unfold decAdd
  rw [decRound28_exact _ _ h]
  show ((alignC a b : ℤ) : ℚ) * (10 : ℚ) ^ (min a.exp b.exp) = _
  exact alignC_val a b

theorem decNeg_val (d : Dec) : (decNeg d).val = -d.val := by
  unfold decNeg Dec.val
  push_cast
  ring

theorem decRound28_neg (c e : ℤ) (hc : c < 0) : (decRound28 c e).val < 0 := by
  have hvneg : ∀ (x : ℤ) (y : ℤ), x < 0 → Dec.val ⟨x, y⟩ < 0 := by
    intro x y hx
    unfold Dec.val
    apply mul_neg_of_neg_of_pos _ (zpow10_pos y)
    exact_mod_cast hx
  unfold decRound28
  by_cases h : numDigits c ≤ 28
  · rw [if_pos h]
    exact hvneg c e hc
  · rw [if_neg h]
    have hk : 27 + (numDigits c - 28) = numDigits c - 1 := by
      have := dig10_pos 200 c.natAbs
      unfold numDigits at h ⊢
      omega
    have hclow : c ≤ -(10 : ℤ) ^ (27 + (numDigits c - 28)) := by
      have := numDigits_lower c (by omega)
      rw [hk]
      rw [abs_of_neg hc] at this
      omega
    have hq : rheDivI c (10 ^ (numDigits c - 28)) < 0 := by
      set k := numDigits c - 28 with hkdef
      have hclose := rheDivI_close c (10 ^ k) (pow_pos (by norm_num) k)
      have hpos : (0 : ℚ) < ((10 : ℕ) ^ k : ℚ) := by positivity
      have hcdiv : (c : ℚ) / ((10 : ℕ) ^ k : ℚ) ≤ -(10 : ℚ) ^ 27 := by
        rw [div_le_iff₀ hpos]
        have h1 : (c : ℚ) ≤ -((10 : ℚ) ^ (27 + k)) := by exact_mod_cast hclow
        have h2 : ((10 : ℚ) ^ (27 + k)) = (10 : ℚ) ^ 27 * ((10 : ℕ) ^ k : ℚ) := by
          push_cast
          ring
        nlinarith [hpos]
      have habs := abs_le.mp hclose
      have : ((rheDivI c (10 ^ k) : ℤ) : ℚ) ≤ (c : ℚ) / ((10 : ℕ) ^ k : ℚ) + 1 / 2 := by
        push_cast at habs ⊢
        linarith [habs.2]
      have hql : ((rheDivI c (10 ^ k) : ℤ) : ℚ) < 0 := by
        calc ((rheDivI c (10 ^ k) : ℤ) : ℚ) ≤ (c : ℚ) / ((10 : ℕ) ^ k : ℚ) + 1 / 2 := this
          _ ≤ -(10 : ℚ) ^ 27 + 1 / 2 := by linarith
          _ < 0 := by norm_num
      exact_mod_cast hql
    by_cases h2 : numDigits (rheDivI c (10 ^ (numDigits c - 28))) ≤ 28
    · rw [if_pos h2]
      exact hvneg _ _ hq
    · rw [if_neg h2]
      apply hvneg
      have : (rheDivI c (10 ^ (numDigits c - 28))).ediv 10 ≤ (-1 : ℤ).ediv 10 :=
        Int.ediv_le_ediv (by norm_num) (by omega)
      have hneg1 : (-1 : ℤ).ediv 10 = -1 := by decide
      omega

theorem decAdd_neg (a b : Dec) (h : a.val + b.val < 0) : (decAdd a b).val < 0 := by
  have hc : alignC a b < 0 := by
    by_contra hc
    push_neg at hc
    have hval := alignC_val a b
    have h0 : (0 : ℚ) ≤ ((alignC a b : ℤ) : ℚ) * (10 : ℚ) ^ (min a.exp b.exp) :=
      mul_nonneg (by exact_mod_cast hc) (zpow10_pos _).le
    rw [hval] at h0
    linarith
  exact decRound28_neg _ _ hc

/-! ### The shift/renumber transform (C7 and C9) -/

theorem transformGo_map_start {α : Type} (g : Dec → α) (x : Dec) (fix : Bool) :
    ∀ (i : ℕ) (subs : List Subtitle),
      (transformGo x fix i subs).map (fun e => g e.start) =
        subs.map fun e => g (decAdd e.start x) := by
  intro i subs
  induction subs generalizing i with
  | nil => simp [transformGo]
  | cons e rest ih =>
    cases fix <;> simp [transformGo, transformOne, ih]

theorem transformGo_map_stop {α : Type} (g : Dec → α) (x : Dec) (fix : Bool) :
    ∀ (i : ℕ) (subs : List Subtitle),
      (transformGo x fix i subs).map (fun e => g e.stop) =
        subs.map fun e => g (decAdd e.stop x) := by
  intro i subs
  induction subs generalizing i with
  | nil => simp [transformGo]
  | cons e rest ih =>
    cases fix <;> simp [transformGo, transformOne, ih]

theorem transformGo_map_content (x : Dec) (fix : Bool) :
    ∀ (i : ℕ) (subs : List Subtitle),
      (transformGo x fix i subs).map Subtitle.content = subs.map Subtitle.content := by
  intro i subs
  induction subs generalizing i with
  | nil => simp [transformGo]
  | cons e rest ih =>
    cases fix <;> simp [transformGo, transformOne, ih]

theorem transformGo_map_index (x : Dec) :
    ∀ (i : ℕ) (subs : List Subtitle),
      (transformGo x false i subs).map Subtitle.index = subs.map Subtitle.index := by
  intro i subs
  induction subs generalizing i with
  | nil => simp [transformGo]
  | cons e rest ih =>
    simp [transformGo, transformOne, ih]

/-- C7 amended: the transform adds the shift to every entry's start and
end in the program's 28-significant-digit decimal context: the stored
result is exactly old value + shift whenever the aligned exact sum fits
in 28 digits, and a negative exact sum always yields a negative stored
value (no clamping at zero); order, length and content are unchanged,
and so are the indices when not renumbering. -/
theorem transform_shift_frame (subs : List Subtitle) (shift : Dec) (fix : Bool) :
    (transform_subs subs shift fix).length = subs.length ∧
    (transform_subs subs shift fix).map Subtitle.content = subs.map Subtitle.content ∧
    (fix = false →
      (transform_subs subs shift fix).map Subtitle.index = subs.map Subtitle.index) ∧
    (transform_subs subs shift fix).map Subtitle.start =
      subs.map (fun e => decAdd e.start shift) ∧
    (transform_subs subs shift fix).map Subtitle.stop =
      subs.map (fun e => decAdd e.stop shift) ∧
    (∀ e ∈ subs, numDigits (alignC e.start shift) ≤ 28 →
      (decAdd e.start shift).val = e.start.val + shift.val) ∧
    (∀ e ∈ subs, numDigits (alignC e.stop shift) ≤ 28 →
      (decAdd e.stop shift).val = e.stop.val + shift.val) ∧
    (∀ e ∈ subs, e.start.val + shift.val < 0 → (decAdd e.start shift).val < 0) ∧
    (∀ e ∈ subs, e.stop.val + shift.val < 0 → (decAdd e.stop shift).val < 0) := by
  refine ⟨?_, transformGo_map_content shift fix 1 subs,
    fun hf => by rw [hf]; exact transformGo_map_index shift 1 subs,
    transformGo_map_start id shift fix 1 subs,
    transformGo_map_stop id shift fix 1 subs,
    fun e _ h => decAdd_val_exact _ _ h,
    fun e _ h => decAdd_val_exact _ _ h,
    fun e _ h => decAdd_neg _ _ h,
    fun e _ h => decAdd_neg _ _ h⟩
  have := congrArg List.length (transformGo_map_content shift fix 1 subs)
  simpa using this

theorem val_div_pow (c : ℤ) (e : ℤ) (k : ℕ) (h : e = -(k : ℤ)) :
    Dec.val ⟨c, e⟩ = (c : ℚ) / 10 ^ k := by
  unfold Dec.val
  rw [h, zpow_neg, ← zpow_natCast (10 : ℚ) k, div_eq_mul_inv]

theorem val_int (c : ℤ) : Dec.val ⟨c, 0⟩ = (c : ℚ) := by
  unfold Dec.val
  norm_num

/-- C7 counterexample: with a stored start carrying 55 significant digits
(the Decimal of the double nearest 0.1, exactly as parsed from the
timecode 00:00:00,100) and shift 1, the context addition rounds to 28
significant digits, so the transformed start is not the exact sum of the
old start and the shift. -/
theorem transform_shift_not_exact :
    ((transform_subs
        [⟨.txt "1".data,
          ⟨1000000000000000055511151231257827021181583404541015625, -55⟩,
          ⟨1000000000000000055511151231257827021181583404541015625, -55⟩, []⟩]
        ⟨1, 0⟩ false).map fun e => e.start.val) ≠
      [Dec.val ⟨1000000000000000055511151231257827021181583404541015625, -55⟩ +
        Dec.val ⟨1, 0⟩] := by
  have hcomp : transform_subs
      [⟨.txt "1".data,
        ⟨1000000000000000055511151231257827021181583404541015625, -55⟩,
        ⟨1000000000000000055511151231257827021181583404541015625, -55⟩, []⟩]
      ⟨1, 0⟩ false =
      [⟨.txt "1".data, ⟨1100000000000000005551115123, -27⟩,
        ⟨1100000000000000005551115123, -27⟩, []⟩] := by decide
  rw [hcomp]
  simp only [List.map_cons, List.map_nil, ne_eq, List.cons.injEq, and_true]
  intro habs
  rw [show (⟨1100000000000000005551115123, -27⟩ : Dec).val =
    Dec.val ⟨1100000000000000005551115123, -27⟩ from rfl] at habs
  rw [val_div_pow _ _ 27 (by norm_num), val_div_pow _ _ 55 (by norm_num), val_int] at habs
  field_simp at habs
  norm_num at habs

/-- C7 witness: the frame theorem at one entry with start 2.5, end 4 and
shift 1.5, whose aligned sums fit the context precision. -/
theorem transform_shift_frame_witness :
    (decAdd (⟨25, -1⟩ : Dec) ⟨15, -1⟩).val = Dec.val ⟨25, -1⟩ + Dec.val ⟨15, -1⟩ :=
  (transform_shift_frame [⟨.txt "1".data, ⟨25, -1⟩, ⟨4, 0⟩, []⟩] ⟨15, -1⟩ false).2.2.2.2.2.1
    ⟨.txt "1".data, ⟨25, -1⟩, ⟨4, 0⟩, []⟩ (by simp) (by decide)

/-- C9 amended: applying shift x and then the shift Decimal(-x) restores
every entry's start and end values exactly whenever each of the two
context additions per field is exact, that is, its aligned sum fits the
28-significant-digit precision; without that proviso restoration holds
only up to rounding at the 28th significant digit. -/
theorem shift_inverse_exact (subs : List Subtitle) (x : Dec)
    (h1 : ∀ e ∈ subs, numDigits (alignC e.start x) ≤ 28 ∧ numDigits (alignC e.stop x) ≤ 28)
    (h2 : ∀ e ∈ subs, numDigits (alignC (decAdd e.start x) (decNeg x)) ≤ 28 ∧
      numDigits (alignC (decAdd e.stop x) (decNeg x)) ≤ 28) :
    ((transform_subs (transform_subs subs x false) (decNeg x) false).map
        fun e => e.start.val) = subs.map (fun e => e.start.val) ∧
    ((transform_subs (transform_subs subs x false) (decNeg x) false).map
        fun e => e.stop.val) = subs.map fun e => e.stop.val := by
  constructor
  · show (transformGo (decNeg x) false 1 (transform_subs subs x false)).map
        (fun e => Dec.val e.start) = _
    rw [transformGo_map_start Dec.val (decNeg x) false 1 _]
    show (transformGo x false 1 subs).map (fun e => Dec.val (decAdd e.start (decNeg x))) = _
    rw [transformGo_map_start (fun d => Dec.val (decAdd d (decNeg x))) x false 1 subs]
    apply List.map_congr_left
    intro e he
    rw [decAdd_val_exact _ _ (h2 e he).1, decAdd_val_exact _ _ (h1 e he).1, decNeg_val]
    ring
  · show (transformGo (decNeg x) false 1 (transform_subs subs x false)).map
        (fun e => Dec.val e.stop) = _
    rw [transformGo_map_stop Dec.val (decNeg x) false 1 _]
    show (transformGo x false 1 subs).map (fun e => Dec.val (decAdd e.stop (decNeg x))) = _
    rw [transformGo_map_stop (fun d => Dec.val (decAdd d (decNeg x))) x false 1 subs]
    apply List.map_congr_left
    intro e he
    rw [decAdd_val_exact _ _ (h2 e he).2, decAdd_val_exact _ _ (h1 e he).2, decNeg_val]
    ring

/-- C9 counterexample: the same 55-digit stored start with shift 1 and
then shift -1: the first addition rounds to 28 significant digits, so
the final start value differs from the original. -/
theorem shift_inverse_not_exact :
    ((transform_subs
        (transform_subs
          [⟨.txt "1".data,
            ⟨1000000000000000055511151231257827021181583404541015625, -55⟩,
            ⟨1000000000000000055511151231257827021181583404541015625, -55⟩, []⟩]
          ⟨1, 0⟩ false)
        (decNeg ⟨1, 0⟩) false).map fun e => e.start.val) ≠
      [Dec.val ⟨1000000000000000055511151231257827021181583404541015625, -55⟩] := by
  have hcomp : transform_subs
      (transform_subs
        [⟨.txt "1".data,
          ⟨1000000000000000055511151231257827021181583404541015625, -55⟩,
          ⟨1000000000000000055511151231257827021181583404541015625, -55⟩, []⟩]
        ⟨1, 0⟩ false)
      (decNeg ⟨1, 0⟩) false =
      [⟨.txt "1".data, ⟨100000000000000005551115123, -27⟩,
        ⟨100000000000000005551115123, -27⟩, []⟩] := by decide
  rw [hcomp]
  simp only [List.map_cons, List.map_nil, ne_eq, List.cons.injEq, and_true]
  intro habs
  rw [show (⟨100000000000000005551115123, -27⟩ : Dec).val =
    Dec.val ⟨100000000000000005551115123, -27⟩ from rfl] at habs
  rw [val_div_pow _ _ 27 (by norm_num), val_div_pow _ _ 55 (by norm_num)] at habs
  field_simp at habs
  norm_num at habs

/-- C9 witness: one entry with start 2.5 and end 4, shift 1.5 and back. -/
theorem shift_inverse_exact_witness :
    ((transform_subs
        (transform_subs [⟨.txt "1".data, ⟨25, -1⟩, ⟨4, 0⟩, []⟩] ⟨15, -1⟩ false)
        (decNeg ⟨15, -1⟩) false).map fun e => e.start.val) =
      ([⟨.txt "1".data, ⟨25, -1⟩, ⟨4, 0⟩, []⟩] : List Subtitle).map fun e => e.start.val :=
  (shift_inverse_exact [⟨.txt "1".data, ⟨25, -1⟩, ⟨4, 0⟩, []⟩] ⟨15, -1⟩
    (by decide) (by decide)).1

/-! ### C4: the decoded value is a binary double, not the exact decimal -/

theorem rheDiv_close (a b : ℕ) (hb : 0 < b) :
    |((rheDiv a b : ℕ) : ℚ) - (a : ℚ) / (b : ℚ)| ≤ 1 / 2 := by
  have hbq : (0 : ℚ) < (b : ℚ) := by exact_mod_cast hb
  have hdm : b * (a / b) + a % b = a := Nat.div_add_mod a b
  have hrb : a % b < b := Nat.mod_lt a hb
  have hc2 : (a : ℚ) = ((a / b : ℕ) : ℚ) * (b : ℚ) + ((a % b : ℕ) : ℚ) := by
    exact_mod_cast (by linarith [hdm] : a = (a / b) * b + a % b)
  have hcq : (a : ℚ) / (b : ℚ) = ((a / b : ℕ) : ℚ) + ((a % b : ℕ) : ℚ) / (b : ℚ) := by
    rw [hc2]
    field_simp
  have hr0 : (0 : ℚ) ≤ ((a % b : ℕ) : ℚ) / (b : ℚ) := by positivity
  unfold rheDiv
  by_cases h1 : 2 * (a % b) < b
  · rw [if_pos h1, hcq]
    have hlt : ((a % b : ℕ) : ℚ) / (b : ℚ) < 1 / 2 := by
      rw [div_lt_div_iff₀ hbq (by norm_num)]
      have : (2 : ℚ) * ((a % b : ℕ) : ℚ) < (b : ℚ) := by exact_mod_cast h1
      linarith
    rw [abs_le]
    constructor <;> [linarith; linarith]
  · rw [if_neg h1]
    by_cases h2 : b < 2 * (a % b)
    · rw [if_pos h2, hcq]
      have hlt : 1 / 2 < ((a % b : ℕ) : ℚ) / (b : ℚ) := by
        rw [div_lt_div_iff₀ (by norm_num) hbq]
        have : (b : ℚ) < 2 * ((a % b : ℕ) : ℚ) := by exact_mod_cast h2
        linarith
      have hle : ((a % b : ℕ) : ℚ) / (b : ℚ) < 1 := by
        rw [div_lt_one hbq]
        exact_mod_cast hrb
      rw [abs_le]
      push_cast
      constructor <;> linarith
    · have heq : (a % b) * 2 = b := by omega
      have hhalf : ((a % b : ℕ) : ℚ) / (b : ℚ) = 1 / 2 := by
        rw [div_eq_div_iff (ne_of_gt hbq) (by norm_num : (2 : ℚ) ≠ 0)]
        have h3q : ((a % b : ℕ) : ℚ) * 2 = (b : ℚ) := by exact_mod_cast heq
        linarith
      rw [if_neg h2, hcq, hhalf]
      by_cases h3 : (a / b) % 2 = 0 <;> [rw [if_pos h3]; rw [if_neg h3]] <;>
        · push_cast
          rw [abs_le]
          constructor <;> linarith

theorem floorLog2_le (f : ℕ) : ∀ n k : ℕ, n < 2 ^ (k + 1) → floorLog2 f n ≤ k := by
  induction f with
  | zero => intro n k _; simp [floorLog2]
  | succ f ih =>
    intro n k hn
    unfold floorLog2
    by_cases h2 : 2 ≤ n
    · rw [if_pos h2]
      have hk : 1 ≤ k := by
        by_contra hk
        have : k = 0 := by omega
        subst this
        simp at hn
        omega
      have hdiv : n / 2 < 2 ^ (k - 1 + 1) := by
        have : n / 2 < 2 ^ k := by
          apply Nat.div_lt_of_lt_mul
          calc n < 2 ^ (k + 1) := hn
            _ = 2 * 2 ^ k := by rw [pow_succ]; ring
        have hke : k - 1 + 1 = k := by omega
        rwa [hke]
      have := ih (n / 2) (k - 1) hdiv
      omega
    · rw [if_neg h2]
      omega

theorem F_val_nonneg (x : F) : 0 ≤ x.val := by
  unfold F.val
  positivity

theorem half_div_pow_le (s : ℕ) (h : 52 ≤ s) : (1 / 2 : ℚ) / 2 ^ s ≤ 1 / 2 ^ 53 := by
  rw [div_le_div_iff₀ (by positivity) (by positivity)]
  calc (1 / 2 : ℚ) * 2 ^ 53 = 2 ^ 52 := by norm_num
    _ ≤ 2 ^ s := by
      apply pow_le_pow_right₀ (by norm_num)
      omega
    _ = 1 * 2 ^ s := by ring

theorem floatDivMicro_close (micro : ℕ) (hu : micro ≤ 999999) :
    |(floatDivMicro micro).val - (micro : ℚ) / 1000000| ≤ 1 / 2 ^ 53 ∧
      (floatDivMicro micro).val < 1 := by
  unfold floatDivMicro
  by_cases h0 : micro = 0
  · subst h0
    simp [F.val]
  · rw [if_neg h0]
    set t0 := if micro * 2 ^ floorLog2 200 (1000000 / micro) = 1000000
      then floorLog2 200 (1000000 / micro) else floorLog2 200 (1000000 / micro) + 1 with ht0
    have hval : (F.val ⟨rheDiv (micro * 2 ^ (52 + t0)) 1000000, 52 + t0⟩) =
        ((rheDiv (micro * 2 ^ (52 + t0)) 1000000 : ℕ) : ℚ) / 2 ^ (52 + t0) := rfl
    have hclose := rheDiv_close (micro * 2 ^ (52 + t0)) 1000000 (by norm_num)
    push_cast at hclose
    have hpow : (0 : ℚ) < 2 ^ (52 + t0) := by positivity
    have key : F.val ⟨rheDiv (micro * 2 ^ (52 + t0)) 1000000, 52 + t0⟩ -
        (micro : ℚ) / 1000000 =
        (((rheDiv (micro * 2 ^ (52 + t0)) 1000000 : ℕ) : ℚ) -
          (micro : ℚ) * 2 ^ (52 + t0) / 1000000) / 2 ^ (52 + t0) := by
      rw [hval]
      field_simp
      ring
    have herr : |F.val ⟨rheDiv (micro * 2 ^ (52 + t0)) 1000000, 52 + t0⟩ -
        (micro : ℚ) / 1000000| ≤ (1 / 2) / 2 ^ (52 + t0) := by
      rw [key, abs_div, abs_of_pos hpow]
      gcongr
    have hsm : (1 / 2 : ℚ) / 2 ^ (52 + t0) ≤ 1 / 2 ^ 53 := half_div_pow_le _ (by omega)
    constructor
    · exact herr.trans hsm
    · have habs := abs_le.mp herr
      have hmic : (micro : ℚ) / 1000000 ≤ 999999 / 1000000 := by
        gcongr
        exact_mod_cast hu
      calc F.val ⟨rheDiv (micro * 2 ^ (52 + t0)) 1000000, 52 + t0⟩ ≤
          (micro : ℚ) / 1000000 + (1 / 2) / 2 ^ (52 + t0) := by linarith [habs.2]
        _ ≤ 999999 / 1000000 + 1 / 2 ^ 53 := by linarith
        _ < 1 := by norm_num

theorem floatAddNat_close (X : ℕ) (d : F) (hX : X ≤ 86399) (hd1 : d.val < 1)
    (ht : 52 ≤ d.t) :
    |(floatAddNat X d).val - ((X : ℚ) + d.val)| ≤ 1 / 2 ^ 36 := by
  unfold floatAddNat
  have hexact : ((X * 2 ^ d.t + d.m : ℕ) : ℚ) / 2 ^ d.t = (X : ℚ) + d.val := by
    unfold F.val
    push_cast
    field_simp
  by_cases hN : X * 2 ^ d.t + d.m < 2 ^ 53
  · rw [if_pos hN]
    have : F.val ⟨X * 2 ^ d.t + d.m, d.t⟩ = ((X * 2 ^ d.t + d.m : ℕ) : ℚ) / 2 ^ d.t := by
      unfold F.val
      push_cast
      ring
    rw [this, hexact]
    simp
  · rw [if_neg hN]
    have hm : d.m < 2 ^ d.t := by
      have := hd1
      unfold F.val at this
      have hp : (0 : ℚ) < 2 ^ d.t := by positivity
      rw [div_lt_one hp] at this
      exact_mod_cast this
    have hNlt : X * 2 ^ d.t + d.m < 2 ^ (d.t + 17) := by
      calc X * 2 ^ d.t + d.m < (X + 1) * 2 ^ d.t := by ring_nf; omega
        _ ≤ 2 ^ 17 * 2 ^ d.t := by
          have : X + 1 ≤ 2 ^ 17 := by norm_num; omega
          exact Nat.mul_le_mul_right _ this
        _ = 2 ^ (d.t + 17) := by rw [← pow_add]; ring_nf
    have hL : floorLog2 200 (X * 2 ^ d.t + d.m) ≤ d.t + 16 :=
      floorLog2_le 200 _ (d.t + 16) hNlt
    set N := X * 2 ^ d.t + d.m with hNdef
    set j := floorLog2 200 N - 52 with hjdef
    have hjt : j ≤ d.t - 36 := by omega
    have hjt2 : j ≤ d.t := by omega
    have hval : F.val ⟨rheDiv N (2 ^ j), d.t - j⟩ =
        ((rheDiv N (2 ^ j) : ℕ) : ℚ) / 2 ^ (d.t - j) := rfl
    have hclose := rheDiv_close N (2 ^ j) (by positivity)
    push_cast at hclose
    have hptj : (0 : ℚ) < (2 : ℚ) ^ (d.t - j) := by positivity
    have hpowsplit : (2 : ℚ) ^ j * 2 ^ (d.t - j) = 2 ^ d.t := by
      rw [← pow_add]
      congr 1
      omega
    have key : F.val ⟨rheDiv N (2 ^ j), d.t - j⟩ - ((N : ℕ) : ℚ) / 2 ^ d.t =
        (((rheDiv N (2 ^ j) : ℕ) : ℚ) - (N : ℚ) / 2 ^ j) / 2 ^ (d.t - j) := by
      rw [hval, ← hpowsplit]
      have h2j : ((2 : ℚ) ^ j) ≠ 0 := by positivity
      field_simp
      ring
    have herr : |F.val ⟨rheDiv N (2 ^ j), d.t - j⟩ - ((N : ℕ) : ℚ) / 2 ^ d.t| ≤
        (1 / 2) / 2 ^ (d.t - j) := by
      rw [key, abs_div, abs_of_pos hptj]
      gcongr
    rw [hexact] at herr
    apply herr.trans
    rw [div_le_div_iff₀ hptj (by positivity)]
    calc (1 / 2 : ℚ) * 2 ^ 36 = 2 ^ 35 := by norm_num
      _ ≤ 2 ^ (d.t - j) := by
        apply pow_le_pow_right₀ (by norm_num)
        omega
      _ = 1 * 2 ^ (d.t - j) := by ring

theorem tz_dvd (f : ℕ) : ∀ m : ℕ, 2 ^ tz f m ∣ m := by
  induction f with
  | zero => intro m; simp [tz]
  | succ f ih =>
    intro m
    unfold tz
    by_cases h : m % 2 = 0 ∧ m ≠ 0
    · rw [if_pos h]
      obtain ⟨k, hk⟩ := ih (m / 2)
      have hm2 : 2 * (m / 2) = m := by omega
      set d := tz f (m / 2) with hd
      refine ⟨k, ?_⟩
      rw [pow_succ]
      calc m = 2 * (m / 2) := hm2.symm
        _ = 2 * (2 ^ d * k) := by rw [hk]
        _ = 2 ^ d * 2 * k := by ring
    · rw [if_neg h]
      simp

theorem fromFloat_val (x : F) : (Dec.fromFloat x).val = x.val := by
  have hdvd : 2 ^ (min (tz 200 x.m) x.t) ∣ x.m :=
    dvd_trans (pow_dvd_pow 2 (min_le_left _ _)) (tz_dvd 200 x.m)
  obtain ⟨w, hw⟩ := hdvd
  have hvt : min (tz 200 x.m) x.t ≤ x.t := min_le_right _ _
  show Dec.val ⟨((x.m / 2 ^ (min (tz 200 x.m) x.t) : ℕ) : ℤ) *
      5 ^ (x.t - min (tz 200 x.m) x.t),
      -((x.t - min (tz 200 x.m) x.t : ℕ) : ℤ)⟩ = x.val
  set v := min (tz 200 x.m) x.t with hv
  have hdivw : x.m / 2 ^ v = w := by
    rw [hw]
    exact Nat.mul_div_cancel_left w (by positivity)
  unfold Dec.val F.val
  rw [hdivw, hw]
  rw [zpow_neg, zpow_natCast (10 : ℚ) (x.t - v)]
  push_cast
  have h10 : (10 : ℚ) ^ (x.t - v) = 2 ^ (x.t - v) * 5 ^ (x.t - v) := by
    rw [← mul_pow]
    norm_num
  have h2v : (2 : ℚ) ^ v * 2 ^ (x.t - v) = 2 ^ x.t := by
    rw [← pow_add]
    congr 1
    omega
  rw [h10, ← h2v]
  have h5 : ((5 : ℚ) ^ (x.t - v)) ≠ 0 := by positivity
  have h2a : ((2 : ℚ) ^ v) ≠ 0 := by positivity
  have h2b : ((2 : ℚ) ^ (x.t - v)) ≠ 0 := by positivity
  field_simp
  ring

/-- C4 amended: decode computes H*3600 + M*60 + S exactly but adds the
microseconds as an IEEE-754 double division and addition, so the value
it returns is a binary-floating-point approximation of
H*3600 + M*60 + S + ms/1000, within 2^-34 seconds of it but not always
equal to it; the stored Decimal equals that double exactly (conversion
from float to Decimal is lossless), so the Duration carries the double's
rounding error rather than the exact decimal value. -/
theorem timecode_to_sec_approx (tf : TimeFields) (hh : tf.hour ≤ 23)
    (hm : tf.minute ≤ 59) (hs : tf.second ≤ 59) (hu : tf.micro ≤ 999999) :
    |(timecode_to_sec tf).val - exactSec tf| ≤ 1 / 2 ^ 34 ∧
    (Dec.fromFloat (timecode_to_sec tf)).val = (timecode_to_sec tf).val := by
  refine ⟨?_, fromFloat_val _⟩
  unfold timecode_to_sec
  have hX : tf.hour * 60 * 60 + tf.minute * 60 + tf.second ≤ 86399 := by omega
  have hexact : exactSec tf =
      ((tf.hour * 60 * 60 + tf.minute * 60 + tf.second : ℕ) : ℚ) + (tf.micro : ℚ) / 1000000 := by
    unfold exactSec
    push_cast
    ring
  by_cases h0 : tf.micro = 0
  · rw [h0]
    have hd0 : floatDivMicro 0 = ⟨0, 0⟩ := rfl
    rw [hd0]
    have hN : (tf.hour * 60 * 60 + tf.minute * 60 + tf.second) * 2 ^ (0 : ℕ) + 0 < 2 ^ 53 := by
      norm_num
      omega
    have : floatAddNat (tf.hour * 60 * 60 + tf.minute * 60 + tf.second) ⟨0, 0⟩ =
        ⟨(tf.hour * 60 * 60 + tf.minute * 60 + tf.second) * 2 ^ (0 : ℕ) + 0, 0⟩ := by
      unfold floatAddNat
      rw [if_pos hN]
    rw [this, hexact, h0]
    unfold F.val
    push_cast
    norm_num
  · obtain ⟨hdiv, hlt1⟩ := floatDivMicro_close tf.micro hu
    have ht : 52 ≤ (floatDivMicro tf.micro).t := by
      unfold floatDivMicro
      rw [if_neg h0]
      show 52 ≤ 52 + _
      omega
    have hadd := floatAddNat_close (tf.hour * 60 * 60 + tf.minute * 60 + tf.second)
      (floatDivMicro tf.micro) hX hlt1 ht
    rw [hexact]
    have htri := abs_sub_le
      (floatAddNat (tf.hour * 60 * 60 + tf.minute * 60 + tf.second) (floatDivMicro tf.micro)).val
      (((tf.hour * 60 * 60 + tf.minute * 60 + tf.second : ℕ) : ℚ) + (floatDivMicro tf.micro).val)
      (((tf.hour * 60 * 60 + tf.minute * 60 + tf.second : ℕ) : ℚ) + (tf.micro : ℚ) / 1000000)
    have hsnd : |(((tf.hour * 60 * 60 + tf.minute * 60 + tf.second : ℕ) : ℚ) +
        (floatDivMicro tf.micro).val) -
        (((tf.hour * 60 * 60 + tf.minute * 60 + tf.second : ℕ) : ℚ) +
          (tf.micro : ℚ) / 1000000)| =
        |(floatDivMicro tf.micro).val - (tf.micro : ℚ) / 1000000| := by
      congr 1
      ring
    rw [hsnd] at htri
    calc |(floatAddNat (tf.hour * 60 * 60 + tf.minute * 60 + tf.second)
          (floatDivMicro tf.micro)).val -
        (((tf.hour * 60 * 60 + tf.minute * 60 + tf.second : ℕ) : ℚ) +
          (tf.micro : ℚ) / 1000000)| ≤ 1 / 2 ^ 36 + 1 / 2 ^ 53 := by linarith
      _ ≤ 1 / 2 ^ 34 := by norm_num

/-- C4 counterexample: the in-range timecode 00:00:00,100 does not decode
to the exact value 1/10: the returned double and the stored Decimal both
hold 7205759403792794 / 2^56, which differs from 1/10. -/
theorem timecode_to_sec_not_exact :
    strptimeHMSf "00:00:00,100".data = some ⟨0, 0, 0, 100000⟩ ∧
    (timecode_to_sec ⟨0, 0, 0, 100000⟩).val ≠ exactSec ⟨0, 0, 0, 100000⟩ ∧
    (Dec.fromFloat (timecode_to_sec ⟨0, 0, 0, 100000⟩)).val ≠ exactSec ⟨0, 0, 0, 100000⟩ := by
  have hF : timecode_to_sec ⟨0, 0, 0, 100000⟩ = ⟨7205759403792794, 56⟩ := by decide
  have hEx : exactSec ⟨0, 0, 0, 100000⟩ = 1 / 10 := by
    unfold exactSec
    norm_num
  have hvne : F.val ⟨7205759403792794, 56⟩ ≠ 1 / 10 := by
    unfold F.val
    intro habs
    rw [div_eq_div_iff (by positivity) (by norm_num)] at habs
    norm_num at habs
  refine ⟨by decide, ?_, ?_⟩
  · rw [hF, hEx]
    exact hvne
  · rw [hF, hEx, fromFloat_val]
    exact hvne

/-- C4 witness: the approximation theorem at 00:00:01,500. -/
theorem timecode_to_sec_approx_witness :
    |(timecode_to_sec ⟨0, 0, 1, 500000⟩).val - exactSec ⟨0, 0, 1, 500000⟩| ≤ 1 / 2 ^ 34 ∧
    (Dec.fromFloat (timecode_to_sec ⟨0, 0, 1, 500000⟩)).val =
      (timecode_to_sec ⟨0, 0, 1, 500000⟩).val :=
  timecode_to_sec_approx ⟨0, 0, 1, 500000⟩ (by norm_num) (by norm_num) (by norm_num)
    (by norm_num)

/-! ### C6: the domain accepted by the timecode decoder -/

theorem dval_le_9 (c : Char) (h : digitCh c = true) : dval c ≤ 9 := by
  unfold digitCh at h
  rw [Bool.and_eq_true, decide_eq_true_eq, decide_eq_true_eq] at h
  unfold dval
  have h0 : '0'.toNat = 48 := rfl
  rw [h0]
  omega

theorem digitsVal_one (c : Char) : digitsVal [c] = dval c := by
  simp [digitsVal]

theorem digitsVal_two (c1 c2 : Char) : digitsVal [c1, c2] = 10 * dval c1 + dval c2 := by
  simp [digitsVal, List.foldl]

theorem parse2_two (maxv : ℕ) (c1 c2 : Char) (rest : List Char)
    (h1 : digitCh c1 = true) (h2 : digitCh c2 = true)
    (hle : 10 * dval c1 + dval c2 ≤ maxv) :
    parse2 maxv (c1 :: c2 :: rest) = some (10 * dval c1 + dval c2, rest) := by
  simp [parse2, h1, h2, hle]

theorem parse2_one (maxv : ℕ) (c1 c2 : Char) (rest : List Char)
    (h1 : digitCh c1 = true) (h2 : digitCh c2 = false) :
    parse2 maxv (c1 :: c2 :: rest) = some (dval c1, c2 :: rest) := by
  simp [parse2, h1, h2]

theorem parse2_inv (maxv : ℕ) (cs : List Char) (v : ℕ) (rest : List Char)
    (h : parse2 maxv cs = some (v, rest)) :
    (∃ c1 c2, cs = c1 :: c2 :: rest ∧ digitCh c1 = true ∧ digitCh c2 = true ∧
      v = 10 * dval c1 + dval c2 ∧ v ≤ maxv) ∨
    (∃ c1, cs = c1 :: rest ∧ digitCh c1 = true ∧ v = dval c1) := by
  match cs with
  | [] => simp [parse2] at h
  | [c1] =>
    by_cases h1 : digitCh c1 = true
    · rw [show parse2 maxv [c1] = some (dval c1, []) by simp [parse2, h1]] at h
      rw [Option.some_inj, Prod.mk.injEq] at h
      right
      exact ⟨c1, by rw [← h.2], h1, h.1.symm⟩
    · have h1f : digitCh c1 = false := by simpa using h1
      rw [show parse2 maxv [c1] = none by simp [parse2, h1f]] at h
      exact absurd h (by simp)
  | c1 :: c2 :: rest' =>
    by_cases h1 : digitCh c1 = true
    · by_cases h2 : digitCh c2 = true
      · by_cases h3 : 10 * dval c1 + dval c2 ≤ maxv
        · rw [parse2_two maxv c1 c2 rest' h1 h2 h3, Option.some_inj, Prod.mk.injEq] at h
          left
          exact ⟨c1, c2, by rw [h.2], h1, h2, h.1.symm, h.1 ▸ h3⟩
        · rw [show parse2 maxv (c1 :: c2 :: rest') = none by simp [parse2, h1, h2, h3]] at h
          exact absurd h (by simp)
      · have h2f : digitCh c2 = false := by simpa using h2
        rw [parse2_one maxv c1 c2 rest' h1 h2f, Option.some_inj, Prod.mk.injEq] at h
        right
        exact ⟨c1, by rw [h.2], h1, h.1.symm⟩
    · have h1f : digitCh c1 = false := by simpa using h1
      rw [show parse2 maxv (c1 :: c2 :: rest') = none by simp [parse2, h1f]] at h
      exact absurd h (by simp)

theorem parse2_inv_field (maxv v : ℕ) (cs rest : List Char) (h9 : 9 ≤ maxv)
    (h : parse2 maxv cs = some (v, rest)) :
    ∃ ds, cs = ds ++ rest ∧ (∀ c ∈ ds, digitCh c = true) ∧ 1 ≤ ds.length ∧
      ds.length ≤ 2 ∧ digitsVal ds = v ∧ v ≤ maxv := by
  rcases parse2_inv maxv cs v rest h with ⟨c1, c2, hcs, h1, h2, hv, hle⟩ | ⟨c1, hcs, h1, hv⟩
  · refine ⟨[c1, c2], by simp [hcs], ?_, by simp, by simp, ?_, hle⟩
    · intro c hc
      rw [List.mem_cons, List.mem_singleton] at hc
      rcases hc with rfl | rfl <;> assumption
    · rw [digitsVal_two, hv]
  · refine ⟨[c1], by simp [hcs], ?_, by simp, by simp, ?_, ?_⟩
    · intro c hc
      rw [List.mem_singleton] at hc
      subst hc
      exact h1
    · rw [digitsVal_one, hv]
    · have := dval_le_9 c1 h1
      omega

theorem parse2_field (maxv : ℕ) (ds : List Char) (sep : Char) (rest : List Char)
    (hdig : ∀ c ∈ ds, digitCh c = true) (hl1 : 1 ≤ ds.length) (hl2 : ds.length ≤ 2)
    (hv : digitsVal ds ≤ maxv) (hsep : digitCh sep = false) :
    parse2 maxv (ds ++ sep :: rest) = some (digitsVal ds, sep :: rest) := by
  match ds with
  | [c1] =>
    rw [show [c1] ++ sep :: rest = c1 :: sep :: rest from rfl,
      parse2_one maxv c1 sep rest (hdig c1 (by simp)) hsep, digitsVal_one]
  | [c1, c2] =>
    rw [digitsVal_two] at hv ⊢
    rw [show [c1, c2] ++ sep :: rest = c1 :: c2 :: sep :: rest from rfl,
      parse2_two maxv c1 c2 (sep :: rest) (hdig c1 (by simp)) (hdig c2 (by simp)) hv]
  | [] => simp at hl1
  | c1 :: c2 :: c3 :: ds' => simp at hl2

theorem expectCh_inv (c : Char) (cs rest : List Char) (h : expectCh c cs = some rest) :
    cs = c :: rest := by
  match cs with
  | [] => simp [expectCh] at h
  | x :: xs =>
    by_cases hx : x = c
    · rw [show expectCh c (x :: xs) = some xs by simp [expectCh, hx]] at h
      rw [Option.some_inj] at h
      rw [hx, h]
    · rw [show expectCh c (x :: xs) = none by simp [expectCh, hx]] at h
      exact absurd h (by simp)

theorem expectCh_cons (c : Char) (rest : List Char) : expectCh c (c :: rest) = some rest := by
  simp [expectCh]

theorem takeDigits_inv (n : ℕ) : ∀ cs ds r, takeDigits n cs = (ds, r) →
    cs = ds ++ r ∧ (∀ c ∈ ds, digitCh c = true) ∧ ds.length ≤ n := by
  induction n with
  | zero =>
    intro cs ds r h
    rw [show takeDigits 0 cs = ([], cs) from rfl, Prod.mk.injEq] at h
    rw [← h.1, ← h.2]
    simp
  | succ n ih =>
    intro cs ds r h
    match cs with
    | [] =>
      rw [show takeDigits (n + 1) [] = ([], []) from rfl, Prod.mk.injEq] at h
      rw [← h.1, ← h.2]
      simp
    | c :: cs' =>
      by_cases hc : digitCh c = true
      · rcases htd : takeDigits n cs' with ⟨ds', r'⟩
        rw [show takeDigits (n + 1) (c :: cs') = (c :: ds', r') by
          unfold takeDigits
          rw [if_pos hc, htd]] at h
        rw [Prod.mk.injEq] at h
        obtain ⟨hcs', hdig, hlen⟩ := ih cs' ds' r' htd
        rw [← h.1, ← h.2]
        refine ⟨by rw [hcs']; rfl, ?_, by simpa using hlen⟩
        intro x hx
        rw [List.mem_cons] at hx
        rcases hx with rfl | hx
        · exact hc
        · exact hdig x hx
      · rw [show takeDigits (n + 1) (c :: cs') = ([], c :: cs') by
          unfold takeDigits
          rw [if_neg hc]] at h
        rw [Prod.mk.injEq] at h
        rw [← h.1, ← h.2]
        simp

theorem takeDigits_all (n : ℕ) : ∀ ds, (∀ c ∈ ds, digitCh c = true) → ds.length ≤ n →
    takeDigits n ds = (ds, []) := by
  induction n with
  | zero =>
    intro ds h hl
    have hnil : ds = [] := List.length_eq_zero.mp (by omega)
    subst hnil
    rfl
  | succ n ih =>
    intro ds h hl
    match ds with
    | [] => rfl
    | c :: ds' =>
      unfold takeDigits
      rw [if_pos (h c (by simp)), ih ds' (fun x hx => h x (by simp [hx])) (by simpa using hl)]

/-- C6 amended: the timecode decoder succeeds exactly on strings of the
form H:M:S,F where H is one or two digits with value at most 23 (the %H
pattern), M is one or two digits with value at most 59, S is one or two
digits with value at most 59 (the %S pattern also matches 60 and 61 but
the datetime constructor then rejects the parse), and F is one to six
digits; every other input fails with a ValueError, surfaced by the
specification as MalformedTimecode. -/
theorem strptime_domain (cs : List Char) :
    (strptimeHMSf cs).isSome = true ↔
      ∃ hd md sd fd : List Char,
        cs = hd ++ ':' :: (md ++ ':' :: (sd ++ ',' :: fd)) ∧
        (∀ c ∈ hd, digitCh c = true) ∧ 1 ≤ hd.length ∧ hd.length ≤ 2 ∧
          digitsVal hd ≤ 23 ∧
        (∀ c ∈ md, digitCh c = true) ∧ 1 ≤ md.length ∧ md.length ≤ 2 ∧
          digitsVal md ≤ 59 ∧
        (∀ c ∈ sd, digitCh c = true) ∧ 1 ≤ sd.length ∧ sd.length ≤ 2 ∧
          digitsVal sd ≤ 59 ∧
        (∀ c ∈ fd, digitCh c = true) ∧ 1 ≤ fd.length ∧ fd.length ≤ 6 := by
  constructor
  · intro h
    obtain ⟨t, ht⟩ := Option.isSome_iff_exists.mp h
    unfold strptimeHMSf at ht
    rcases hp1 : parse2 23 cs with _ | ⟨v1, r1⟩
    · rw [hp1] at ht; exact absurd ht (by simp)
    rw [hp1] at ht
    dsimp only at ht
    rcases hp2 : expectCh ':' r1 with _ | r2
    · rw [hp2] at ht; exact absurd ht (by simp)
    rw [hp2] at ht
    dsimp only at ht
    rcases hp3 : parse2 59 r2 with _ | ⟨v2, r3⟩
    · rw [hp3] at ht; exact absurd ht (by simp)
    rw [hp3] at ht
    dsimp only at ht
    rcases hp4 : expectCh ':' r3 with _ | r4
    · rw [hp4] at ht; exact absurd ht (by simp)
    rw [hp4] at ht
    dsimp only at ht
    rcases hp5 : parse2 61 r4 with _ | ⟨v3, r5⟩
    · rw [hp5] at ht; exact absurd ht (by simp)
    rw [hp5] at ht
    dsimp only at ht
    rcases hp6 : expectCh ',' r5 with _ | r6
    · rw [hp6] at ht; exact absurd ht (by simp)
    rw [hp6] at ht
    dsimp only at ht
    rcases hp7 : takeDigits 6 r6 with ⟨ds, r7⟩
    rw [hp7] at ht
    dsimp only at ht
    by_cases hds : ds.length = 0
    · rw [if_pos hds] at ht; exact absurd ht (by simp)
    rw [if_neg hds] at ht
    by_cases hr7 : r7 ≠ []
    · rw [if_pos hr7] at ht; exact absurd ht (by simp)
    rw [if_neg hr7] at ht
    by_cases hv3 : v3 ≤ 59
    swap
    · rw [if_neg hv3] at ht; exact absurd ht (by simp)
    push_neg at hr7
    obtain ⟨hd, hcs1, hdg1, hl11, hl12, hval1, hle1⟩ :=
      parse2_inv_field 23 v1 cs r1 (by norm_num) hp1
    have hr1 := expectCh_inv ':' r1 r2 hp2
    obtain ⟨md, hcs2, hdg2, hl21, hl22, hval2, hle2⟩ :=
      parse2_inv_field 59 v2 r2 r3 (by norm_num) hp3
    have hr3 := expectCh_inv ':' r3 r4 hp4
    obtain ⟨sd, hcs3, hdg3, hl31, hl32, hval3, _⟩ :=
      parse2_inv_field 61 v3 r4 r5 (by norm_num) hp5
    have hr5 := expectCh_inv ',' r5 r6 hp6
    obtain ⟨hfd1, hfd2, hfd3⟩ := takeDigits_inv 6 r6 ds r7 hp7
    refine ⟨hd, md, sd, ds, ?_, hdg1, hl11, hl12, by omega, hdg2, hl21, hl22, by omega,
      hdg3, hl31, hl32, by omega, hfd2, by omega, hfd3⟩
    rw [hcs1, hr1, hcs2, hr3, hcs3, hr5, hfd1, hr7]
    simp
  · rintro ⟨hd, md, sd, fd, rfl, hdg1, hl11, hl12, hv1, hdg2, hl21, hl22, hv2,
      hdg3, hl31, hl32, hv3, hdg4, hl41, hl42⟩
    have hcolon : digitCh ':' = false := by decide
    have hcomma : digitCh ',' = false := by decide
    unfold strptimeHMSf
    rw [parse2_field 23 hd ':' _ hdg1 hl11 hl12 hv1 hcolon]
    dsimp only
    rw [expectCh_cons]
    dsimp only
    rw [parse2_field 59 md ':' _ hdg2 hl21 hl22 hv2 hcolon]
    dsimp only
    rw [expectCh_cons]
    dsimp only
    rw [parse2_field 61 sd ',' _ hdg3 hl31 hl32 (by omega) hcomma]
    dsimp only
    rw [expectCh_cons]
    dsimp only
    rw [takeDigits_all 6 fd hdg4 hl42]
    dsimp only
    rw [if_neg (by omega : ¬fd.length = 0)]
    rw [if_neg (by simp : ¬([] : List Char) ≠ [])]
    rw [if_pos hv3]
    simp

/-- C6 counterexample: 24:00:00,000 lies in the claimed domain (hours of
2 or more digits with no upper bound, minutes, seconds and milliseconds
in range) yet the decoder rejects it, while 7:00:00,000 and 00:00:00,12
lie outside the claimed domain (1-digit hour, 2-digit milliseconds) yet
the decoder accepts them. -/
theorem strptime_domain_counterexample :
    strptimeHMSf "24:00:00,000".data = none ∧
    (strptimeHMSf "7:00:00,000".data).isSome = true ∧
    (strptimeHMSf "00:00:00,12".data).isSome = true :=
  ⟨by decide, by decide, by decide⟩

/-- C6 witness: the characterization applied to 0:5:9,12. -/
theorem strptime_domain_witness : (strptimeHMSf "0:5:9,12".data).isSome = true :=
  (strptime_domain "0:5:9,12".data).mpr ⟨['0'], ['5'], ['9'], ['1', '2'], by decide⟩

end Shifter
